import Mathlib

/-!
Verification of the telegram-rag retrieval/indexing pipeline against its
natural-language specification.  Each Python component relevant to the
checked claims is shallowly embedded as an executable Lean definition;
theorems settle the claims against those definitions.

Conventions used throughout the embedding:
* Python `int` is modelled as `Int` (or `Nat` where the source guarantees
  non-negativity, e.g. Telegram message ids fed to the checkpoint store).
* Python `float` settings and scores are modelled as `Rat`; the claims only
  involve order comparisons, which rationals decide exactly.
* Python dicts keyed by strings are modelled as functions `String → Option _`.
* `async` functions are modelled as pure state-passing functions; the event
  loop's interleaving (needed only for the look-back claim) is modelled as a
  small labelled transition system.
-/

namespace TelegramRag

/-! ## Backfill state store — `src/indexer/state.py`

`BackfillStateStore` keeps an in-memory map `chat_id → last_message_id` and
mirrors it to a JSON file on every successful update.  `updated_at`
timestamps are not modelled (no claim mentions them).  The store after
`load()` has `file = mem` (the file was the source of the load, or both are
empty for a fresh store). -/

structure BackfillStore where
  mem : String → Option Nat
  file : String → Option Nat

/-- `BackfillStateStore.update_chat`: if an existing record has
`last_message_id >= message_id` nothing changes and nothing is persisted;
otherwise the record is replaced and the whole state is written to disk.
Returns the new store and whether a persist happened. -/
def updateChat (s : BackfillStore) (chatId : String) (messageId : Nat) :
    BackfillStore × Bool :=
  match s.mem chatId with
  | some v =>
      if messageId ≤ v then (s, false)
      else
        let mem' : String → Option Nat :=
          fun c => if c = chatId then some messageId else s.mem c
        (⟨mem', mem'⟩, true)
  | none =>
      let mem' : String → Option Nat :=
        fun c => if c = chatId then some messageId else s.mem c
      (⟨mem', mem'⟩, true)

/-- A sequence of `update_chat` calls, applied left to right. -/
def applyCalls (s : BackfillStore) (calls : List (String × Nat)) : BackfillStore :=
  calls.foldl (fun st p => (updateChat st p.1 p.2).1) s

/-- The ids supplied for one chat by a call sequence, in order. -/
def idsFor (chatId : String) (calls : List (String × Nat)) : List Nat :=
  (calls.filter (fun p => p.1 = chatId)).map (fun p => p.2)

/-- The value the store is expected to hold for `chatId` after the calls:
the maximum of the pre-existing (loaded) record, if any, and all supplied
ids. -/
def expectedCheckpoint (s : BackfillStore) (chatId : String) (ids : List Nat) :
    Option Nat :=
  match s.mem chatId with
  | some b => some (ids.foldl max b)
  | none => if ids.isEmpty then none else some (ids.foldl max 0)

/-- A store as it stands right after loading a checkpoint file that maps
chat `"c"` to `last_message_id = 100`. -/
def loadedStore : BackfillStore :=
  ⟨fun c => if c = "c" then some 100 else none,
   fun c => if c = "c" then some 100 else none⟩

lemma updateChat_fst_file_eq (s : BackfillStore) (c : String) (id : Nat)
    (h : s.file = s.mem) :
    (updateChat s c id).1.file = (updateChat s c id).1.mem := by
  unfold updateChat
  cases hm : s.mem c with
  | some v =>
      by_cases hle : id ≤ v <;> simp [hle, h]
  | none => simp

lemma updateChat_mem_self (s : BackfillStore) (c : String) (id : Nat) :
    (updateChat s c id).1.mem c =
      some (match s.mem c with | some v => max v id | none => id) := by
  unfold updateChat
  cases hm : s.mem c with
  | some v =>
      by_cases hle : id ≤ v
      · simp [hle, hm, Nat.max_eq_left hle]
      · have hmax : max v id = id := Nat.max_eq_right (by omega)
        simp [hle, hmax]
  | none => simp

lemma updateChat_mem_other (s : BackfillStore) (c : String) (id : Nat)
    (c' : String) (h : c' ≠ c) :
    (updateChat s c id).1.mem c' = s.mem c' := by
  unfold updateChat
  cases hm : s.mem c with
  | some v =>
      by_cases hle : id ≤ v <;> simp [hle, h]
  | none => simp [h]

lemma foldl_max_comm_start (b id : Nat) (l : List Nat) :
    l.foldl max (max b id) = max b (l.foldl max id) := by
  induction l generalizing id with
  | nil => simp
  | cons x xs ih =>
      simp only [List.foldl_cons]
      rw [Nat.max_assoc] at *
      exact ih (max id x)

/-- **C1 (amended).** After any initial load (where the file mirrors memory)
and any sequence of `update_chat` calls, the file still mirrors memory and
the stored value for a chat is the maximum of the loaded baseline (if any)
and all ids supplied for that chat; moreover a call whose id is lower than
or equal to the stored value changes neither the in-memory state nor the
file (no persist happens). -/
theorem checkpoint_monotone_max (s : BackfillStore) (calls : List (String × Nat))
    (c : String) (hfs : s.file = s.mem) :
    (applyCalls s calls).file = (applyCalls s calls).mem ∧
    (applyCalls s calls).mem c = expectedCheckpoint s c (idsFor c calls) ∧
    (∀ v id, s.mem c = some v → id ≤ v → updateChat s c id = (s, false)) := by
  refine ⟨?_, ?_, ?_⟩
  · induction calls generalizing s with
    | nil => simpa [applyCalls]
    | cons p rest ih =>
        simp only [applyCalls, List.foldl_cons]
        exact ih _ (updateChat_fst_file_eq s p.1 p.2 hfs)
  · induction calls generalizing s with
    | nil =>
        simp only [applyCalls, List.foldl_nil, expectedCheckpoint, idsFor,
          List.filter_nil, List.map_nil]
        cases hm : s.mem c <;> simp [hm]
    | cons p rest ih =>
        obtain ⟨c', id⟩ := p
        have step := ih ((updateChat s c' id).1)
          (updateChat_fst_file_eq s c' id hfs)
        simp only [applyCalls, List.foldl_cons] at step ⊢
        rw [step]
        by_cases hc : c' = c
        · subst hc
          simp only [expectedCheckpoint, idsFor, List.filter_cons, updateChat_mem_self,
            decide_True, if_true, List.map_cons]
          cases hm : s.mem c' with
          | some b => simp [hm]
          | none => simp [hm, Nat.zero_max]
        · have hmem := updateChat_mem_other s c' id c (fun h => hc h.symm)
          simp only [expectedCheckpoint, idsFor, List.filter_cons, hmem, hc]
          simp [hc]
  · intro v id hv hle
    unfold updateChat
    simp [hv, hle]

/-- Witness for `checkpoint_monotone_max` at a concrete store and call
sequence: starting fresh (no record for `"c"`), calls with ids 100 then 90
leave the stored and persisted value at `max = 100`. -/
theorem checkpoint_monotone_max_witness :
    (⟨fun _ => none, fun _ => none⟩ : BackfillStore).file =
        (⟨fun _ => none, fun _ => none⟩ : BackfillStore).mem ∧
    (applyCalls ⟨fun _ => none, fun _ => none⟩ [("c", 100), ("c", 90)]).mem "c" =
      expectedCheckpoint ⟨fun _ => none, fun _ => none⟩ "c"
        (idsFor "c" [("c", 100), ("c", 90)]) := by
  have h := checkpoint_monotone_max ⟨fun _ => none, fun _ => none⟩
    [("c", 100), ("c", 90)] "c" rfl
  exact ⟨rfl, h.2.1⟩

/-- **C1 (counterexample).** With a store loaded from disk holding
`last_message_id = 100` for chat `"c"`, a subsequent `update_chat("c", 90)`
leaves the persisted value at 100, while the maximum id ever supplied by the
call sequence is 90 — so the persisted value does not equal the maximum of
the supplied ids. -/
theorem checkpoint_claim_counterexample :
    (applyCalls loadedStore [("c", 90)]).file "c" = some 100 ∧
    (idsFor "c" [("c", 90)]).foldl max 0 = 90 ∧
    (applyCalls loadedStore [("c", 90)]).file "c" ≠ some 90 := by
  refine ⟨?_, by decide, ?_⟩ <;> decide

/-! ## Embedder — `src/indexer/embedder.py`

`Embedder.embed_texts` probes the embedding cache, estimates the cost of the
cache misses (`words × 1.3` tokens, priced per 1k tokens from the
model→price table with default `0.0001`), raises when a positive daily
budget is met or exceeded, and otherwise embeds the misses in batches and
writes them back to the cache.  SHA-256 hashing and the remote API are
opaque to the claims, so they are parameters (`hash`, `api`) of the
embedding function. -/

structure EmbedCacheEntry where
  model : String
  vector : List Rat

/-- The embedding cache, keyed by `text_hash`. -/
def EmbedCache : Type := String → Option EmbedCacheEntry

structure EmbedCfg where
  model : String
  /-- `daily_embed_budget_usd` (0 disables the gate). -/
  dailyBudgetUsd : Rat
  /-- `embed_batch_size`, already normalised to a positive value by the
  constructor. -/
  batchSize : Nat

/-- `self.price_per_1k_tokens` with the `.get(model, 0.0001)` default. -/
def pricePer1kTokens (model : String) : Rat :=
  if model = "text-embedding-3-large" then 13 / 100000
  else if model = "text-embedding-3-small" then 2 / 100000
  else if model = "text-embedding-ada-002" then 1 / 10000
  else 1 / 10000

/-- `len(text.split())`: the number of maximal non-whitespace runs. -/
def wordCount (text : String) : Nat :=
  ((text.split Char.isWhitespace).filter (fun w => w ≠ "")).length

/-- `total_tokens = sum(len(text.split()) * 1.3 for text, _ in texts_to_embed)`. -/
def estimatedTokens (texts : List String) : Rat :=
  texts.foldl (fun acc t => acc + (wordCount t : Rat) * (13 / 10)) 0

/-- `estimated_cost = (total_tokens / 1000) * price_per_1k_tokens`. -/
def estimatedCost (model : String) (texts : List String) : Rat :=
  estimatedTokens texts / 1000 * pricePer1kTokens model

/-- The cache-probing loop of `embed_texts`: returns the cached
`(text_hash, vector)` results and the `(text, text_hash)` pairs that still
need embedding, in input order.  An entry cached under a different model
counts as a miss. -/
def probeCache (cfg : EmbedCfg) (hash : String → String) (cache : EmbedCache)
    (texts : List String) : List (String × List Rat) × List (String × String) :=
  texts.foldl
    (fun acc text =>
      let h := hash text
      match cache h with
      | some e =>
          if e.model = cfg.model then (acc.1 ++ [(h, e.vector)], acc.2)
          else (acc.1, acc.2 ++ [(text, h)])
      | none => (acc.1, acc.2 ++ [(text, h)]))
    ([], [])

/-- The texts of the cache misses, in order. -/
def cacheMissTexts (cfg : EmbedCfg) (hash : String → String) (cache : EmbedCache)
    (texts : List String) : List String :=
  (probeCache cfg hash cache texts).2.map (fun p => p.1)

/-- Outcome of one `embed_texts` call: whether *BudgetExceeded* was raised,
the returned `(text_hash, vector)` pairs, the cache after the call, and how
many embedding API batch calls were issued. -/
structure EmbedOutcome where
  raised : Bool
  results : List (String × List Rat)
  cache : EmbedCache
  apiBatches : Nat

/-- `Embedder.embed_texts`.  `api` stands for one remote embedding of one
text (the per-batch grouping only controls call bookkeeping). -/
def embedTexts (cfg : EmbedCfg) (hash : String → String) (api : String → List Rat)
    (cache : EmbedCache) (texts : List String) (dryRun : Bool) : EmbedOutcome :=
  if texts.isEmpty then ⟨false, [], cache, 0⟩
  else
    let probed := probeCache cfg hash cache texts
    let results := probed.1
    let toEmbed := probed.2
    if toEmbed.isEmpty then ⟨false, results, cache, 0⟩
    else
      let cost := estimatedCost cfg.model (toEmbed.map (fun p => p.1))
      if dryRun then ⟨false, results, cache, 0⟩
      else if 0 < cfg.dailyBudgetUsd ∧ cfg.dailyBudgetUsd ≤ cost then
        -- `raise RuntimeError("Daily embedding budget exceeded")`: nothing
        -- after this line runs, so the cache is unchanged and no API call
        -- was made.
        ⟨true, [], cache, 0⟩
      else
        let embedded := toEmbed.map (fun p => (p.2, api p.1))
        let cache' := embedded.foldl
          (fun c hv =>
            fun k => if k = hv.1 then some ⟨cfg.model, hv.2⟩ else c k)
          cache
        ⟨false, results ++ embedded, cache',
          (toEmbed.length + cfg.batchSize - 1) / cfg.batchSize⟩

/-- **C2 (confirmed).** A (non-dry-run) `embed_texts` call raises
*BudgetExceeded* iff the daily budget is positive and the estimated cost of
the cache-miss texts meets or exceeds it; and whenever it raises, the cache
is unchanged and no embedding API batch was issued. -/
theorem embed_budget_gate (cfg : EmbedCfg) (hash : String → String)
    (api : String → List Rat) (cache : EmbedCache) (texts : List String) :
    ((embedTexts cfg hash api cache texts false).raised = true ↔
      (0 < cfg.dailyBudgetUsd ∧
        cfg.dailyBudgetUsd ≤ estimatedCost cfg.model
          (cacheMissTexts cfg hash cache texts))) ∧
    ((embedTexts cfg hash api cache texts false).raised = true →
      (embedTexts cfg hash api cache texts false).cache = cache ∧
      (embedTexts cfg hash api cache texts false).apiBatches = 0) := by
  unfold embedTexts cacheMissTexts
  by_cases hempty : texts.isEmpty
  · have hmiss : (probeCache cfg hash cache texts).2 = [] := by
      cases texts with
      | nil => rfl
      | cons a l => simp [List.isEmpty] at hempty
    constructor
    · simp only [hempty, if_true]
      constructor
      · intro h; exact absurd h (by simp)
      · rintro ⟨hpos, hle⟩
        rw [hmiss] at hle
        simp only [List.map_nil] at hle
        have : estimatedCost cfg.model [] = 0 := by
          simp [estimatedCost, estimatedTokens]
        rw [this] at hle
        exact absurd (lt_of_lt_of_le hpos hle) (lt_irrefl 0)
    · simp [hempty]
  · simp only [hempty, if_false]
    by_cases hmiss : (probeCache cfg hash cache texts).2.isEmpty
    · have hnil : (probeCache cfg hash cache texts).2 = [] := by
        cases h : (probeCache cfg hash cache texts).2 with
        | nil => rfl
        | cons a l => rw [h] at hmiss; simp [List.isEmpty] at hmiss
      constructor
      · simp only [hmiss, if_true]
        constructor
        · intro h; exact absurd h (by simp)
        · rintro ⟨hpos, hle⟩
          rw [hnil] at hle
          simp only [List.map_nil] at hle
          have : estimatedCost cfg.model [] = 0 := by
            simp [estimatedCost, estimatedTokens]
          rw [this] at hle
          exact absurd (lt_of_lt_of_le hpos hle) (lt_irrefl 0)
      · simp [hmiss]
    · simp only [hmiss, if_false, Bool.false_eq_true]
      by_cases hgate : 0 < cfg.dailyBudgetUsd ∧
          cfg.dailyBudgetUsd ≤ estimatedCost cfg.model
            ((probeCache cfg hash cache texts).2.map (fun p => p.1))
      · simp [hgate]
      · simp [hgate]

/-! ## Chunker — `src/indexer/chunker.py`

`TextChunker.chunk_text` returns `[]` for whitespace-only input (the
*ChunkingEmpty* outcome of the spec), a single `(full_text, text)` chunk
when everything fits in `target_tokens`, and otherwise slides a token
window over the text, prepending the header and snapping non-final chunk
boundaries.  The tiktoken encoder is opaque, so `encode`/`decode` are
fields of the chunker; all claims about chunking only need that a
non-whitespace text encodes to a non-empty token list. -/

structure Chunker where
  encode : String → List Nat
  decode : List Nat → String
  targetTokens : Nat
  overlapTokens : Nat

/-- Highest index at which `pat` occurs in `hay` (Python `str.rfind`),
`none` when `pat` does not occur. -/
def sublistRFind (hay pat : List Char) : Option Nat :=
  ((List.range (hay.length + 1)).filter (fun i => pat.isPrefixOf (hay.drop i))).getLast?

/-- `TextChunker._clean_chunk_boundary`: try to end the chunk at the last
sentence delimiter in the final 20%, else the last space in the final 10%,
else before the last code fence in the final 30%.  Python's float
thresholds `0.8/0.9/0.7` are modelled as exact rationals. -/
def cleanChunkBoundary (text : String) : String :=
  let cs := text.toList
  let n := cs.length
  let sentenceCut : Option (List Char) :=
    [". ".toList, "! ".toList, "? ".toList, "\n\n".toList].findSome? (fun pat =>
      match sublistRFind cs pat with
      | some pos =>
          if (n : Rat) * (8 / 10) < (pos : Rat) then some (cs.take (pos + pat.length))
          else none
      | none => none)
  let spaceCut : Option (List Char) :=
    match sublistRFind cs [' '] with
    | some pos => if (n : Rat) * (9 / 10) < (pos : Rat) then some (cs.take pos) else none
    | none => none
  let fenceCut : Option (List Char) :=
    match sublistRFind cs [Char.ofNat 96, Char.ofNat 96, Char.ofNat 96] with
    | some pos => if (n : Rat) * (7 / 10) < (pos : Rat) then some (cs.take pos) else none
    | none => none
  String.mk (((sentenceCut.orElse (fun _ => spaceCut)).orElse (fun _ => fenceCut)).getD cs)

/-- The `while start < len(text_tokens)` loop of `chunk_text`.  `available`
is `target_tokens - len(header_tokens)` as a (possibly negative) integer.
The loop is written with explicit fuel; since every iteration advances
`start` by at least one, fuel `tokens.length` is never exhausted before the
guard fails. -/
def chunkLoop (c : Chunker) (header : String) (tokens : List Nat)
    (available : Int) : Nat → Nat → List (String × String)
  | 0, _ => []
  | fuel + 1, start =>
    if start < tokens.length then
      let endIdx : Int := min ((start : Int) + available) (tokens.length : Int)
      let chunkTokens := (tokens.drop start).take (endIdx - (start : Int)).toNat
      let rawText := c.decode chunkTokens
      let snapped :=
        if endIdx < (tokens.length : Int) then cleanChunkBoundary rawText else rawText
      let full := if header ≠ "" then header ++ "\n\n" ++ snapped else snapped
      if (tokens.length : Int) ≤ endIdx then [(full, snapped)]
      else
        (full, snapped) ::
          chunkLoop c header tokens available fuel
            (max ((start : Int) + available - (c.overlapTokens : Int))
              ((start : Int) + 1)).toNat
    else []

/-- `TextChunker.chunk_text`. -/
def chunkText (c : Chunker) (text : String) (header : String) :
    List (String × String) :=
  if text.toList.all Char.isWhitespace then []
  else
    let total := (c.encode (header ++ "\n\n" ++ text)).length
    if total ≤ c.targetTokens then
      [(if header ≠ "" then header ++ "\n\n" ++ text else text, text)]
    else
      let textTokens := c.encode text
      let headerTokens := if header ≠ "" then c.encode (header ++ "\n\n") else []
      let available : Int := (c.targetTokens : Int) - (headerTokens.length : Int)
      chunkLoop c header textTokens available textTokens.length 0

lemma chunkLoop_ne_nil (c : Chunker) (header : String) (tokens : List Nat)
    (available : Int) (fuel start : Nat) (h : start < tokens.length) :
    chunkLoop c header tokens available (fuel + 1) start ≠ [] := by
  simp only [chunkLoop]
  rw [if_pos h]
  split <;> simp

/-- **C7 (confirmed).** `chunk_text` produces no chunks (the spec's
*ChunkingEmpty* outcome) exactly when the input text is whitespace-only;
equivalently, any input with a non-whitespace character yields at least one
`(full_text, lexical_text)` chunk.  The only assumption on the opaque
tokenizer is that a non-whitespace text encodes to at least one token. -/
theorem chunk_text_empty_iff (c : Chunker) (text header : String)
    (henc : text.toList.all Char.isWhitespace = false → c.encode text ≠ []) :
    (chunkText c text header = [] ↔ text.toList.all Char.isWhitespace = true) := by
  refine ⟨?_, fun hblank => by unfold chunkText; rw [if_pos hblank]⟩
  intro hempty
  by_contra hb
  have hblank : text.toList.all Char.isWhitespace = false := by
    cases h : text.toList.all Char.isWhitespace
    · rfl
    · exact absurd h hb
  unfold chunkText at hempty
  simp only [hblank, Bool.false_eq_true, if_false] at hempty
  by_cases hfits : (c.encode (header ++ "\n\n" ++ text)).length ≤ c.targetTokens
  · rw [if_pos hfits] at hempty
    exact absurd hempty (by simp)
  · rw [if_neg hfits] at hempty
    have htok : c.encode text ≠ [] := henc hblank
    cases htokl : c.encode text with
    | nil => exact absurd htokl htok
    | cons t ts =>
        rw [htokl] at hempty
        simp only [List.length_cons] at hempty
        exact chunkLoop_ne_nil c header (t :: ts) _ ts.length 0 (by simp) hempty

/-- A concrete chunker used only as a witness: one token per character. -/
def demoChunker : Chunker :=
  ⟨fun s => s.toList.map Char.toNat, fun l => String.mk (l.map Char.ofNat), 5, 1⟩

/-- Witness for `chunk_text_empty_iff` at a concrete chunker and input. -/
theorem chunk_text_empty_iff_witness :
    ("hello world".toList.all Char.isWhitespace = false →
        demoChunker.encode "hello world" ≠ []) ∧
    (chunkText demoChunker "hello world" "" = [] ↔
        "hello world".toList.all Char.isWhitespace = true) :=
  ⟨by decide, chunk_text_empty_iff demoChunker "hello world" "" (by decide)⟩

/-! ## Chat streaming — `src/api/app/chat.py`

`ChatService.chat_stream` yields a sequence of typed SSE chunks.  The
embedding below records only the *types* of the yielded chunks, driven by
the branch conditions of the source: whether the rate limiter refused the
request, whether the request carried history, whether reformulation changed
the query, whether the search returned zero results, and how many content
deltas the LLM stream produced. -/

inductive StreamEv
  | reformulate
  | search
  | start
  | content
  | citations
  | usage
  | endEv
  | errEv
deriving DecidableEq, Repr

/-- The sequence of event types yielded by `chat_stream` on a run that hits
no exception.  Note the code yields `search` twice (once before and once
after the retrieval call), up to two `reformulate` events, and zero or more
`content` events after `start`. -/
def chatStreamEvents (rateLimited historyNonempty reformChanged resultsEmpty : Bool)
    (contentDeltas : Nat) : List StreamEv :=
  if rateLimited then [.errEv]
  else
    (if historyNonempty then
      [.reformulate] ++ (if reformChanged then [.reformulate] else [])
     else []) ++
    [.search, .search] ++
    (if resultsEmpty then [.content, .endEv]
     else [.start] ++ List.replicate contentDeltas .content ++ [.citations, .endEv])

/-- Tail matcher for `content* citations end` (end of input required). -/
def contentStarCitesEnd : List StreamEv → Bool
  | .content :: rest => contentStarCitesEnd rest
  | [.citations, .endEv] => true
  | _ => false

/-- Matcher for the claimed regex `reformulate? search (start content+
citations end | content end)`, written from the spec's words. -/
def claimedStreamShape (l : List StreamEv) : Bool :=
  let body : List StreamEv → Bool := fun l =>
    match l with
    | .start :: .content :: rest => contentStarCitesEnd rest
    | [.content, .endEv] => true
    | _ => false
  let afterReform : List StreamEv → Bool := fun l =>
    match l with
    | .search :: rest => body rest
    | _ => false
  match l with
  | .reformulate :: rest => afterReform rest
  | rest => afterReform rest

/-- Matcher for the amended regex `reformulate​{0,2} search search
(start content* citations end | content end)`. -/
def amendedStreamShape (l : List StreamEv) : Bool :=
  let body : List StreamEv → Bool := fun l =>
    match l with
    | .start :: rest => contentStarCitesEnd rest
    | [.content, .endEv] => true
    | _ => false
  let afterReform : List StreamEv → Bool := fun l =>
    match l with
    | .search :: .search :: rest => body rest
    | _ => false
  match l with
  | .reformulate :: .reformulate :: rest => afterReform rest
  | .reformulate :: rest => afterReform rest
  | rest => afterReform rest

/-- **C3 (counterexample).** A successful `/chat` with no history, non-empty
results and one content delta emits `search search start content citations
end`, which does not match the claimed regex `reformulate? search (start
content+ citations end | content end)`: the code always yields two `search`
events. -/
theorem chat_stream_claim_counterexample :
    chatStreamEvents false false false false 1 =
      [.search, .search, .start, .content, .citations, .endEv] ∧
    claimedStreamShape (chatStreamEvents false false false false 1) = false := by
  constructor <;> decide

lemma contentStarCitesEnd_replicate (n : Nat) :
    contentStarCitesEnd (List.replicate n .content ++ [.citations, .endEv]) = true := by
  induction n with
  | zero => rfl
  | succ k ih => simpa [List.replicate_succ, contentStarCitesEnd] using ih

/-- **C3 (amended).** Every successful (non-rate-limited, exception-free)
`/chat` stream matches `reformulate​{0,2} search search (start content*
citations end | content end)` and its last event is `end`. -/
theorem chat_stream_amended_shape (historyNonempty reformChanged resultsEmpty : Bool)
    (contentDeltas : Nat) :
    amendedStreamShape
        (chatStreamEvents false historyNonempty reformChanged resultsEmpty
          contentDeltas) = true ∧
    (chatStreamEvents false historyNonempty reformChanged resultsEmpty
        contentDeltas).getLast? = some .endEv := by
  constructor
  · cases historyNonempty <;> cases reformChanged <;> cases resultsEmpty <;>
      simp [chatStreamEvents, amendedStreamShape, contentStarCitesEnd,
        contentStarCitesEnd_replicate]
  · have key : ∀ (l : List StreamEv) (a b : StreamEv), (l ++ [a, b]).getLast? = some b := by
      intro l a b
      rw [show l ++ [a, b] = (l ++ [a]) ++ [b] by simp]
      exact List.getLast?_concat _
    cases historyNonempty <;> cases reformChanged <;> cases resultsEmpty <;>
        simp [chatStreamEvents] <;>
      · rw [show (StreamEv.start ::
              (List.replicate contentDeltas StreamEv.content ++
                [StreamEv.citations, StreamEv.endEv])) =
            (StreamEv.start :: List.replicate contentDeltas StreamEv.content) ++
              [StreamEv.citations, StreamEv.endEv] by simp]
        exact key _ _ _

/-! ## Hybrid search — `src/api/app/search.py`

The retrieval-side settings that the search client reads (all Python ints,
modelled as `Int`), the seed type, seed dedupe (`_filter_seeds`), the
candidate trim loop of `_assemble_candidate`, and the limit/budget
computation at the top of `search`. -/

structure SearchCfg where
  searchDefaultLimit : Int
  searchSeedLimit : Int
  searchSeedDedupeMessageGap : Int
  searchSeedDedupeTimeGapSeconds : Int
  searchCandidateMaxMessages : Int
  searchCandidateTokenLimit : Int
  searchContextMaxReturn : Int
  searchExpansionMaxLevel : Int
  searchExpansionSeedStep : Int
  searchExpansionResultStep : Int
  searchExpansionRerankStep : Int
  rerankCandidateLimit : Int
deriving DecidableEq, Repr

/-- The defaults from `src/api/app/settings.py`. -/
def defaultSearchCfg : SearchCfg :=
  ⟨10, 30, 10, 120, 80, 1800, 25, 3, 30, 5, 40, 40⟩

/-- `SeedHit` (scores are Python floats, modelled as `Rat`). -/
structure SeedHit where
  id : String
  chatId : String
  messageId : Int
  messageDateMs : Option Int
  text : String
  score : Rat
deriving DecidableEq, Repr

/-- The sort key of `_filter_seeds`: `(seed.score, seed.message_date_ms or 0)`. -/
def seedSortKey (s : SeedHit) : Rat × Int :=
  (s.score, s.messageDateMs.getD 0)

/-- `a` may precede `b` in the descending sort (key of `a` ≥ key of `b`
lexicographically). -/
def seedBefore (a b : SeedHit) : Bool :=
  decide ((seedSortKey b).1 < (seedSortKey a).1 ∨
    ((seedSortKey a).1 = (seedSortKey b).1 ∧ (seedSortKey b).2 ≤ (seedSortKey a).2))

def insertSortedSeed (a : SeedHit) : List SeedHit → List SeedHit
  | [] => [a]
  | b :: bs => if seedBefore a b then a :: b :: bs else b :: insertSortedSeed a bs

/-- `sorted(seeds, key=(score, message_date_ms or 0), reverse=True)`.
Python's sort is stable; a stable insertion sort over the same total key
order produces the identical list. -/
def sortSeedsDesc (seeds : List SeedHit) : List SeedHit :=
  seeds.foldr insertSortedSeed []

/-- The inner-loop test of `_filter_seeds` (the `for existing in selected`
body; the early `break` makes it an existential over `selected`).  Note the
Python truthiness guards: a zero gap disables the corresponding check, and
there is no same-chat condition. -/
def tooCloseSeed (cfg : SearchCfg) (seed existing : SeedHit) : Bool :=
  let idGap := max 0 cfg.searchSeedDedupeMessageGap
  let timeGapMs := max 0 cfg.searchSeedDedupeTimeGapSeconds * 1000
  (decide (idGap ≠ 0) && decide (|seed.messageId - existing.messageId| ≤ idGap)) ||
  (decide (timeGapMs ≠ 0) &&
    (match seed.messageDateMs, existing.messageDateMs with
     | some ds, some de => decide (|ds - de| ≤ timeGapMs)
     | _, _ => false))

def filterSeedsLoop (cfg : SearchCfg) (selected : List SeedHit) :
    List SeedHit → List SeedHit
  | [] => selected
  | s :: rest =>
      if selected.any (fun e => tooCloseSeed cfg s e) then
        filterSeedsLoop cfg selected rest
      else filterSeedsLoop cfg (selected ++ [s]) rest

/-- `VespaSearchClient._filter_seeds`. -/
def filterSeeds (cfg : SearchCfg) (seeds : List SeedHit) : List SeedHit :=
  if seeds.isEmpty then []
  else
    let sorted := sortSeedsDesc seeds
    let selected := filterSeedsLoop cfg [] sorted
    if selected.isEmpty then sorted.take 1 else selected

/-- Rejection condition as the claim states it (same chat required, plain
gap comparisons).  Used only to exhibit the counterexample. -/
def claimedReject (cfg : SearchCfg) (accepted : List SeedHit) (s : SeedHit) : Prop :=
  ∃ e ∈ accepted, e.chatId = s.chatId ∧
    (|s.messageId - e.messageId| ≤ max 0 cfg.searchSeedDedupeMessageGap ∨
      (s.messageDateMs.isSome ∧ e.messageDateMs.isSome ∧
        |s.messageDateMs.getD 0 - e.messageDateMs.getD 0| ≤
          max 0 cfg.searchSeedDedupeTimeGapSeconds * 1000))

instance (cfg : SearchCfg) (accepted : List SeedHit) (s : SeedHit) :
    Decidable (claimedReject cfg accepted s) := by
  unfold claimedReject; infer_instance

/-- The dedupe procedure the claim describes: same greedy structure, but a
seed is suppressed only by an already-accepted seed of the same chat. -/
def specFilterClaimed (cfg : SearchCfg) (seeds : List SeedHit) : List SeedHit :=
  if seeds.isEmpty then []
  else
    let sorted := sortSeedsDesc seeds
    let selected := sorted.foldl
      (fun acc s => if claimedReject cfg acc s then acc else acc ++ [s]) []
    if selected.isEmpty then sorted.take 1 else selected

/-- Rejection condition as amended: chat ignored; each gap check applies
only when its configured gap is positive; the time check needs both dates. -/
def amendedReject (cfg : SearchCfg) (accepted : List SeedHit) (s : SeedHit) : Prop :=
  ∃ e ∈ accepted,
    (0 < max 0 cfg.searchSeedDedupeMessageGap ∧
      |s.messageId - e.messageId| ≤ max 0 cfg.searchSeedDedupeMessageGap) ∨
    (0 < max 0 cfg.searchSeedDedupeTimeGapSeconds * 1000 ∧
      s.messageDateMs.isSome ∧ e.messageDateMs.isSome ∧
      |s.messageDateMs.getD 0 - e.messageDateMs.getD 0| ≤
        max 0 cfg.searchSeedDedupeTimeGapSeconds * 1000)

instance (cfg : SearchCfg) (accepted : List SeedHit) (s : SeedHit) :
    Decidable (amendedReject cfg accepted s) := by
  unfold amendedReject; infer_instance

/-- Seed dedupe as the amended claim words it. -/
def specFilterAmended (cfg : SearchCfg) (seeds : List SeedHit) : List SeedHit :=
  if seeds.isEmpty then []
  else
    let sorted := sortSeedsDesc seeds
    let selected := sorted.foldl
      (fun acc s => if amendedReject cfg acc s then acc else acc ++ [s]) []
    if selected.isEmpty then sorted.take 1 else selected

lemma tooCloseSeed_any_iff (cfg : SearchCfg) (acc : List SeedHit) (s : SeedHit) :
    (acc.any (fun e => tooCloseSeed cfg s e) = true) ↔ amendedReject cfg acc s := by
  rw [List.any_eq_true]
  unfold amendedReject
  constructor
  · rintro ⟨e, he, htc⟩
    refine ⟨e, he, ?_⟩
    unfold tooCloseSeed at htc
    simp only [Bool.or_eq_true, Bool.and_eq_true, decide_eq_true_eq] at htc
    rcases htc with ⟨hgap, hle⟩ | ⟨hgap, hdate⟩
    · exact Or.inl ⟨by omega, hle⟩
    · cases hds : s.messageDateMs with
      | none => rw [hds] at hdate; simp at hdate
      | some ds =>
          cases hde : e.messageDateMs with
          | none => rw [hds, hde] at hdate; simp at hdate
          | some de =>
              rw [hds, hde] at hdate
              simp only [decide_eq_true_eq] at hdate
              exact Or.inr ⟨by omega, by simp [hds], by simp [hde],
                by simpa [hds, hde] using hdate⟩
  · rintro ⟨e, he, hcond⟩
    refine ⟨e, he, ?_⟩
    unfold tooCloseSeed
    simp only [Bool.or_eq_true, Bool.and_eq_true, decide_eq_true_eq]
    rcases hcond with ⟨hgap, hle⟩ | ⟨hgap, hs, hes, hle⟩
    · exact Or.inl ⟨by omega, hle⟩
    · right
      cases hds : s.messageDateMs with
      | none => rw [hds] at hs; simp at hs
      | some ds =>
          cases hde : e.messageDateMs with
          | none => rw [hde] at hes; simp at hes
          | some de =>
              rw [hds, hde] at hle
              simp only [Option.getD_some] at hle
              exact ⟨by omega, by simp [hle]⟩

lemma filterSeedsLoop_eq_foldl (cfg : SearchCfg) (l : List SeedHit)
    (acc : List SeedHit) :
    filterSeedsLoop cfg acc l =
      l.foldl (fun acc s => if amendedReject cfg acc s then acc else acc ++ [s]) acc := by
  induction l generalizing acc with
  | nil => rfl
  | cons s rest ih =>
      simp only [filterSeedsLoop, List.foldl_cons]
      by_cases h : amendedReject cfg acc s
      · rw [if_pos ((tooCloseSeed_any_iff cfg acc s).mpr h), if_pos h]
        exact ih acc
      · rw [if_neg (fun hb => h ((tooCloseSeed_any_iff cfg acc s).mp hb)), if_neg h]
        exact ih (acc ++ [s])

/-- **C4 (amended).** Seed dedupe accepts seeds greedily in `(score desc,
message_date desc)` order, rejecting a seed exactly when the accepted set —
regardless of chat — contains one within the (positive) message-id gap, or
one such that both carry dates within the (positive) time gap; with the
top-1 fallback unchanged. -/
theorem seed_dedupe_amended (cfg : SearchCfg) (seeds : List SeedHit) :
    filterSeeds cfg seeds = specFilterAmended cfg seeds := by
  unfold filterSeeds specFilterAmended
  simp only [filterSeedsLoop_eq_foldl]

/-- Two seeds in different chats, five message ids apart. -/
def seedChatA : SeedHit := ⟨"a:100", "chat-a", 100, none, "hello", 2⟩

def seedChatB : SeedHit := ⟨"b:105", "chat-b", 105, none, "world", 1⟩

/-- **C4 (counterexample).** Under the default settings (id gap 10), a seed
of chat `"chat-b"` five message ids away from an accepted seed of chat
`"chat-a"` is suppressed by the code, while the claim (same-chat-only
suppression) would keep both. -/
theorem seed_dedupe_claim_counterexample :
    filterSeeds defaultSearchCfg [seedChatA, seedChatB] = [seedChatA] ∧
    specFilterClaimed defaultSearchCfg [seedChatA, seedChatB] =
      [seedChatA, seedChatB] := by
  constructor <;> decide

lemma filterSeedsLoop_prefix (cfg : SearchCfg) (l : List SeedHit)
    (acc : List SeedHit) :
    ∃ t, filterSeedsLoop cfg acc l = acc ++ t := by
  induction l generalizing acc with
  | nil => exact ⟨[], by simp [filterSeedsLoop]⟩
  | cons s rest ih =>
      simp only [filterSeedsLoop]
      by_cases h : acc.any (fun e => tooCloseSeed cfg s e)
      · rw [if_pos h]; exact ih acc
      · rw [if_neg h]
        obtain ⟨t, ht⟩ := ih (acc ++ [s])
        exact ⟨s :: t, by simpa using ht⟩

lemma sortSeedsDesc_ne_nil (seeds : List SeedHit) (h : seeds ≠ []) :
    sortSeedsDesc seeds ≠ [] := by
  cases seeds with
  | nil => exact absurd rfl h
  | cons a l =>
      show insertSortedSeed a (sortSeedsDesc l) ≠ []
      cases sortSeedsDesc l with
      | nil => simp [insertSortedSeed]
      | cons b bs =>
          simp only [insertSortedSeed]
          split <;> simp

/-- **C5 (confirmed).** Seed dedupe never returns an empty list for a
non-empty input; in fact the head of its output is the top seed of the
`(score desc, message_date desc)` order (the first sorted seed is always
accepted, so the fallback never has to fire). -/
theorem seed_dedupe_min_one (cfg : SearchCfg) (seeds : List SeedHit)
    (h : seeds ≠ []) :
    filterSeeds cfg seeds ≠ [] ∧
    (filterSeeds cfg seeds).head? = (sortSeedsDesc seeds).head? := by
  have hne : seeds.isEmpty = false := by
    cases seeds with
    | nil => exact absurd rfl h
    | cons a l => rfl
  obtain ⟨top, rest, hs⟩ := List.exists_cons_of_ne_nil (sortSeedsDesc_ne_nil seeds h)
  obtain ⟨t, ht⟩ := filterSeedsLoop_prefix cfg rest [top]
  have hloop : filterSeedsLoop cfg [] (top :: rest) = top :: t := by
    simp only [filterSeedsLoop, List.any_nil, Bool.false_eq_true, if_false,
      List.nil_append]
    simpa using ht
  simp only [filterSeeds, hne, Bool.false_eq_true, if_false, hs, hloop]
  simp

/-- Witness for `seed_dedupe_min_one` at a concrete seed list. -/
theorem seed_dedupe_min_one_witness :
    ([seedChatA, seedChatB] ≠ ([] : List SeedHit)) ∧
    filterSeeds defaultSearchCfg [seedChatA, seedChatB] ≠ [] ∧
    (filterSeeds defaultSearchCfg [seedChatA, seedChatB]).head? =
      (sortSeedsDesc [seedChatA, seedChatB]).head? :=
  ⟨by decide,
    (seed_dedupe_min_one defaultSearchCfg [seedChatA, seedChatB] (by decide)).1,
    (seed_dedupe_min_one defaultSearchCfg [seedChatA, seedChatB] (by decide)).2⟩

/-! ### Candidate snippet trim loop — `_assemble_candidate`

The `while len(text_block) > max_chars and len(filtered) > 1` loop of
`VespaSearchClient._assemble_candidate`, operating on the assembled,
text-bearing, `message_id`-ascending message list.  Each iteration pops
index 0, or index 1 when the first message is the seed. -/

structure MessageRecord where
  messageId : Int
  messageDateMs : Option Int
  text : String
deriving DecidableEq, Repr

/-- Python `str.strip()`: drop leading and trailing whitespace. -/
def stripString (s : String) : String :=
  String.mk
    ((s.toList.dropWhile Char.isWhitespace).reverse.dropWhile
      Char.isWhitespace).reverse

/-- `VespaSearchClient._format_message_line`. -/
def formatMessageLine (m : MessageRecord) : String :=
  let t := stripString m.text
  if t = "" then "" else t

/-- The rendered `text_block`: one line per message, newline-joined. -/
def candidateBlock (msgs : List MessageRecord) : String :=
  String.intercalate "\n" (msgs.map formatMessageLine)

/-- One `filtered.pop(drop_index)` step of the trim loop. -/
def dropOnce (seedId : Int) (msgs : List MessageRecord) : List MessageRecord :=
  match msgs with
  | [] => []
  | m :: rest => if m.messageId = seedId then m :: rest.tail else rest

/-- The trim loop, with explicit fuel; each iteration removes one message,
so fuel `msgs.length` is never exhausted before the guard fails. -/
def dropLoopGo (seedId : Int) (maxChars : Nat) :
    Nat → List MessageRecord → List MessageRecord
  | 0, msgs => msgs
  | fuel + 1, msgs =>
      if maxChars < (candidateBlock msgs).length ∧ 1 < msgs.length then
        dropLoopGo seedId maxChars fuel (dropOnce seedId msgs)
      else msgs

/-- The soft character cap and trim loop of `_assemble_candidate`:
`max_chars = max(1, search_candidate_token_limit) * 4`. -/
def capCandidateMessages (cfg : SearchCfg) (seedId : Int)
    (msgs : List MessageRecord) : List MessageRecord :=
  dropLoopGo seedId (max 1 cfg.searchCandidateTokenLimit * 4).toNat msgs.length msgs

lemma dropOnce_sublist (seedId : Int) (msgs : List MessageRecord) :
    List.Sublist (dropOnce seedId msgs) msgs := by
  cases msgs with
  | nil => simp [dropOnce]
  | cons m rest =>
      simp only [dropOnce]
      split
      · exact List.Sublist.cons₂ m (List.tail_sublist rest)
      · exact List.sublist_cons_self m rest

lemma dropOnce_length (seedId : Int) (msgs : List MessageRecord)
    (h : 1 < msgs.length) :
    (dropOnce seedId msgs).length = msgs.length - 1 := by
  cases msgs with
  | nil => simp at h
  | cons m rest =>
      cases rest with
      | nil => simp at h
      | cons m2 rest2 => simp only [dropOnce]; split <;> simp

lemma dropOnce_keeps_seed (seedId : Int) (msgs : List MessageRecord)
    (hnd : (msgs.map MessageRecord.messageId).Nodup)
    (m : MessageRecord) (hm : m ∈ msgs) (hid : m.messageId = seedId) :
    m ∈ dropOnce seedId msgs := by
  cases msgs with
  | nil => simp at hm
  | cons h0 rest =>
      simp only [dropOnce]
      simp only [List.map_cons, List.nodup_cons] at hnd
      rcases List.mem_cons.mp hm with hmh | hmr
      · subst hmh
        rw [if_pos hid]
        exact List.mem_cons_self m _
      · have hne : h0.messageId ≠ seedId := by
          intro heq
          exact hnd.1 (by
            rw [heq, ← hid]
            exact List.mem_map_of_mem MessageRecord.messageId hmr)
        rw [if_neg hne]
        exact hmr

lemma dropLoopGo_sublist (seedId : Int) (maxChars fuel : Nat)
    (msgs : List MessageRecord) :
    List.Sublist (dropLoopGo seedId maxChars fuel msgs) msgs := by
  induction fuel generalizing msgs with
  | zero => simp [dropLoopGo]
  | succ k ih =>
      simp only [dropLoopGo]
      split
      · exact (ih (dropOnce seedId msgs)).trans (dropOnce_sublist seedId msgs)
      · exact List.Sublist.refl msgs

lemma dropLoopGo_keeps_seed (seedId : Int) (maxChars fuel : Nat)
    (msgs : List MessageRecord) (hnd : (msgs.map MessageRecord.messageId).Nodup)
    (m : MessageRecord) (hm : m ∈ msgs) (hid : m.messageId = seedId) :
    m ∈ dropLoopGo seedId maxChars fuel msgs := by
  induction fuel generalizing msgs with
  | zero => simpa [dropLoopGo] using hm
  | succ k ih =>
      simp only [dropLoopGo]
      split
      · exact ih (dropOnce seedId msgs)
          (hnd.sublist ((dropOnce_sublist seedId msgs).map MessageRecord.messageId))
          (dropOnce_keeps_seed seedId msgs hnd m hm hid) -- note: hid reused
      · exact hm

lemma dropLoopGo_post (seedId : Int) (maxChars fuel : Nat)
    (msgs : List MessageRecord) (hfuel : msgs.length ≤ fuel + 1) :
    (candidateBlock (dropLoopGo seedId maxChars fuel msgs)).length ≤ maxChars ∨
      (dropLoopGo seedId maxChars fuel msgs).length ≤ 1 := by
  induction fuel generalizing msgs with
  | zero =>
      simp only [dropLoopGo]
      omega
  | succ k ih =>
      simp only [dropLoopGo]
      split
      · rename_i hcond
        refine ih (dropOnce seedId msgs) ?_
        rw [dropOnce_length seedId msgs hcond.2]
        omega
      · rename_i hcond
        rw [not_and_or] at hcond
        rcases hcond with hc | hc
        · exact Or.inl (by omega)
        · exact Or.inr (by omega)

/-- **C6 (amended).** While the rendered block exceeds the soft character
cap and at least two messages remain, the trim loop drops the *first*
message of the ascending list (or the second, when the first is the seed) —
not the message furthest from the seed.  The seed message itself is never
dropped (given distinct message ids), the surviving messages are a sublist
of the input, and on exit the block is within the cap or a single message
remains. -/
theorem candidate_trim_amended (cfg : SearchCfg) (seedId : Int)
    (msgs : List MessageRecord)
    (hnd : (msgs.map MessageRecord.messageId).Nodup)
    (m : MessageRecord) (hm : m ∈ msgs) (hid : m.messageId = seedId) :
    m ∈ capCandidateMessages cfg seedId msgs ∧
    List.Sublist (capCandidateMessages cfg seedId msgs) msgs ∧
    ((candidateBlock (capCandidateMessages cfg seedId msgs)).length ≤
        (max 1 cfg.searchCandidateTokenLimit * 4).toNat ∨
      (capCandidateMessages cfg seedId msgs).length ≤ 1) := by
  refine ⟨?_, ?_, ?_⟩
  · exact dropLoopGo_keeps_seed seedId _ msgs.length msgs hnd m hm hid
  · exact dropLoopGo_sublist seedId _ msgs.length msgs
  · exact dropLoopGo_post seedId _ msgs.length msgs (by omega)

/-- Messages used by the trim-loop counterexample and witness. -/
def msgNear : MessageRecord := ⟨99, none, "aa"⟩

def msgSeed : MessageRecord := ⟨100, none, "bbbb"⟩

def msgFar : MessageRecord := ⟨150, none, "cc"⟩

/-- A configuration whose `search_candidate_token_limit` is 2, giving a
soft cap of 8 characters. -/
def cfgTrimEx : SearchCfg := ⟨10, 30, 10, 120, 80, 2, 25, 3, 30, 5, 40, 40⟩

/-- **C6 (counterexample).** With messages at ids 99, 100 (the seed) and
150 and a cap of 8 characters, one drop suffices; the code drops the
message at id 99 (distance 1 from the seed) and keeps the one at id 150
(distance 50) — the dropped message is not the one furthest from the seed. -/
theorem candidate_trim_claim_counterexample :
    capCandidateMessages cfgTrimEx 100 [msgNear, msgSeed, msgFar] =
      [msgSeed, msgFar] ∧
    msgNear ∉ capCandidateMessages cfgTrimEx 100 [msgNear, msgSeed, msgFar] ∧
    msgFar ∈ capCandidateMessages cfgTrimEx 100 [msgNear, msgSeed, msgFar] ∧
    |msgNear.messageId - 100| < |msgFar.messageId - 100| := by
  refine ⟨by decide, by decide, by decide, by decide⟩

/-- Witness for `candidate_trim_amended` at the same concrete input. -/
theorem candidate_trim_amended_witness :
    msgSeed ∈ capCandidateMessages cfgTrimEx 100 [msgNear, msgSeed, msgFar] ∧
    List.Sublist (capCandidateMessages cfgTrimEx 100 [msgNear, msgSeed, msgFar])
      [msgNear, msgSeed, msgFar] :=
  ⟨(candidate_trim_amended cfgTrimEx 100 [msgNear, msgSeed, msgFar] (by decide)
      msgSeed (by decide) (by decide)).1,
    (candidate_trim_amended cfgTrimEx 100 [msgNear, msgSeed, msgFar] (by decide)
      msgSeed (by decide) (by decide)).2.1⟩

/-! ### Result/seed/rerank budgets — `VespaSearchClient.search`

The limit computation at the top of `search` (lines 325–347): clamp the
expansion level, clamp the requested limit into `[1, context_max_return]`,
widen the final limit only when the requested limit equals the configured
default, and grow the seed and rerank budgets with the level. -/

/-- `max(0, min(req.expansion_level, settings.search_expansion_max_level))`
(the `_clamp_expansion` validator applies the same clamp at parse time). -/
def clampExpansionLevel (cfg : SearchCfg) (lvl : Int) : Int :=
  max 0 (min lvl cfg.searchExpansionMaxLevel)

/-- The `final_limit` used to cut the returned candidate list. -/
def finalResultLimit (cfg : SearchCfg) (reqLimit lvl : Int) : Int :=
  let e := clampExpansionLevel cfg lvl
  let base := max 1 (min reqLimit cfg.searchContextMaxReturn)
  if 0 < e ∧ reqLimit = cfg.searchDefaultLimit then
    min (base + e * cfg.searchExpansionResultStep) cfg.searchContextMaxReturn
  else base

/-- The `seed_limit` used for the Vespa seed query. -/
def seedLimitOf (cfg : SearchCfg) (reqLimit lvl : Int) : Int :=
  max (finalResultLimit cfg reqLimit lvl)
    (cfg.searchSeedLimit + clampExpansionLevel cfg lvl * cfg.searchExpansionSeedStep)

/-- The `rerank_cap` bounding the candidates passed to the reranker. -/
def rerankCapOf (cfg : SearchCfg) (reqLimit lvl : Int) : Int :=
  max (finalResultLimit cfg reqLimit lvl)
    (cfg.rerankCandidateLimit +
      clampExpansionLevel cfg lvl * cfg.searchExpansionRerankStep)

lemma clampExpansionLevel_mono (cfg : SearchCfg) (lvl lvl' : Int)
    (h : lvl ≤ lvl') :
    clampExpansionLevel cfg lvl ≤ clampExpansionLevel cfg lvl' := by
  unfold clampExpansionLevel; omega

lemma finalResultLimit_mono (cfg : SearchCfg) (rl lvl lvl' : Int)
    (hmr : 1 ≤ cfg.searchContextMaxReturn)
    (hrs : 0 ≤ cfg.searchExpansionResultStep) (h : lvl ≤ lvl') :
    finalResultLimit cfg rl lvl ≤ finalResultLimit cfg rl lvl' := by
  unfold finalResultLimit
  have hcl := clampExpansionLevel_mono cfg lvl lvl' h
  have hcl0 : 0 ≤ clampExpansionLevel cfg lvl := by
    unfold clampExpansionLevel; omega
  have hmul : clampExpansionLevel cfg lvl * cfg.searchExpansionResultStep ≤
      clampExpansionLevel cfg lvl' * cfg.searchExpansionResultStep :=
    mul_le_mul_of_nonneg_right hcl hrs
  have hmul0 : 0 ≤ clampExpansionLevel cfg lvl' * cfg.searchExpansionResultStep :=
    mul_nonneg (hcl0.trans hcl) hrs
  by_cases hd : rl = cfg.searchDefaultLimit
  · by_cases he : 0 < clampExpansionLevel cfg lvl
    · rw [if_pos ⟨he, hd⟩, if_pos ⟨lt_of_lt_of_le he hcl, hd⟩]
      omega
    · rw [if_neg (fun hx => he hx.1)]
      by_cases he' : 0 < clampExpansionLevel cfg lvl'
      · rw [if_pos ⟨he', hd⟩]
        omega
      · rw [if_neg (fun hx => he' hx.1)]
  · rw [if_neg (fun hx => hd hx.2), if_neg (fun hx => hd hx.2)]

/-- **C10 (confirmed).** When the requested limit differs from
`search_default_limit`, the final result limit equals
`min(max(1, limit), search_context_max_return)` regardless of the expansion
level; the expansion level still grows the seed and rerank budgets
monotonically for every requested limit. -/
theorem search_limit_expansion (cfg : SearchCfg) (reqLimit lvl lvl' : Int)
    (hne : reqLimit ≠ cfg.searchDefaultLimit)
    (hmr : 1 ≤ cfg.searchContextMaxReturn)
    (hrs : 0 ≤ cfg.searchExpansionResultStep)
    (hss : 0 ≤ cfg.searchExpansionSeedStep)
    (hks : 0 ≤ cfg.searchExpansionRerankStep)
    (hlv : lvl ≤ lvl') :
    finalResultLimit cfg reqLimit lvl =
      min (max 1 reqLimit) cfg.searchContextMaxReturn ∧
    finalResultLimit cfg reqLimit lvl = finalResultLimit cfg reqLimit 0 ∧
    (∀ rl : Int, seedLimitOf cfg rl lvl ≤ seedLimitOf cfg rl lvl') ∧
    (∀ rl : Int, rerankCapOf cfg rl lvl ≤ rerankCapOf cfg rl lvl') := by
  have hbase : ∀ l : Int, finalResultLimit cfg reqLimit l =
      max 1 (min reqLimit cfg.searchContextMaxReturn) := by
    intro l
    unfold finalResultLimit
    rw [if_neg (fun hx => hne hx.2)]
  refine ⟨?_, ?_, ?_, ?_⟩
  · rw [hbase lvl]; omega
  · rw [hbase lvl, hbase 0]
  · intro rl
    unfold seedLimitOf
    have hcl := clampExpansionLevel_mono cfg lvl lvl' hlv
    have hmul : clampExpansionLevel cfg lvl * cfg.searchExpansionSeedStep ≤
        clampExpansionLevel cfg lvl' * cfg.searchExpansionSeedStep :=
      mul_le_mul_of_nonneg_right hcl hss
    have hfin := finalResultLimit_mono cfg rl lvl lvl' hmr hrs hlv
    omega
  · intro rl
    unfold rerankCapOf
    have hcl := clampExpansionLevel_mono cfg lvl lvl' hlv
    have hmul : clampExpansionLevel cfg lvl * cfg.searchExpansionRerankStep ≤
        clampExpansionLevel cfg lvl' * cfg.searchExpansionRerankStep :=
      mul_le_mul_of_nonneg_right hcl hks
    have hfin := finalResultLimit_mono cfg rl lvl lvl' hmr hrs hlv
    omega

/-- Witness for `search_limit_expansion`: default settings, requested limit
7 (not the default 10), levels 1 ≤ 2. -/
theorem search_limit_expansion_witness :
    finalResultLimit defaultSearchCfg 7 1 =
      min (max 1 7) defaultSearchCfg.searchContextMaxReturn ∧
    seedLimitOf defaultSearchCfg 7 1 ≤ seedLimitOf defaultSearchCfg 7 2 :=
  ⟨(search_limit_expansion defaultSearchCfg 7 1 2 (by decide) (by decide)
      (by decide) (by decide) (by decide) (by decide)).1,
    (search_limit_expansion defaultSearchCfg 7 1 2 (by decide) (by decide)
      (by decide) (by decide) (by decide) (by decide)).2.2.1 7⟩

/-! ## Look-back serialisation — `src/indexer/main.py`

`_run_recent_lookback` first returns immediately if `self._lookback_lock`
is already locked (the invocation is *skipped*), and otherwise enters
`async with self._lookback_lock` and performs the recent-history scan.  In
asyncio there is no suspension point between the `locked()` check and the
acquisition, so the check-and-acquire is one atomic step.  The routine is
modelled as a labelled transition system over the lock bit and the phase of
each invoking task. -/

inductive LookbackPhase
  | idle
  | scanning
  | done (ranScan : Bool)
deriving DecidableEq, Repr

structure LookbackState (n : Nat) where
  lockHeld : Bool
  tasks : Fin n → LookbackPhase

/-- All tasks about to invoke the routine; lock free. -/
def lookbackInit (n : Nat) : LookbackState n :=
  ⟨false, fun _ => .idle⟩

/-- Atomic steps of `_run_recent_lookback` under the asyncio event loop. -/
inductive LookbackStep {n : Nat} : LookbackState n → LookbackState n → Prop
  | skip (s : LookbackState n) (i : Fin n) :
      s.tasks i = .idle → s.lockHeld = true →
      LookbackStep s ⟨true, Function.update s.tasks i (.done false)⟩
  | acquire (s : LookbackState n) (i : Fin n) :
      s.tasks i = .idle → s.lockHeld = false →
      LookbackStep s ⟨true, Function.update s.tasks i .scanning⟩
  | finish (s : LookbackState n) (i : Fin n) :
      s.tasks i = .scanning →
      LookbackStep s ⟨false, Function.update s.tasks i (.done true)⟩

def LookbackReachable {n : Nat} (s : LookbackState n) : Prop :=
  Relation.ReflTransGen LookbackStep (lookbackInit n) s

/-- Inductive invariant: a scanning task implies the lock is held, and at
most one task is scanning. -/
def lookbackInv {n : Nat} (s : LookbackState n) : Prop :=
  (∀ i, s.tasks i = .scanning → s.lockHeld = true) ∧
  (∀ i j, s.tasks i = .scanning → s.tasks j = .scanning → i = j)

lemma lookbackInv_init (n : Nat) : lookbackInv (lookbackInit n) := by
  constructor
  · intro i h; simp [lookbackInit] at h
  · intro i j hi _; simp [lookbackInit] at hi

lemma lookbackInv_step {n : Nat} {s s' : LookbackState n}
    (hinv : lookbackInv s) (hstep : LookbackStep s s') : lookbackInv s' := by
  cases hstep with
  | skip i hidle hlock =>
      refine ⟨fun k _ => rfl, fun k l hk hl => ?_⟩
      have hk' : Function.update s.tasks i (LookbackPhase.done false) k =
        LookbackPhase.scanning := hk
      have hl' : Function.update s.tasks i (LookbackPhase.done false) l =
        LookbackPhase.scanning := hl
      rcases eq_or_ne k i with hki | hki
      · subst hki; rw [Function.update_same] at hk'; simp at hk'
      · rcases eq_or_ne l i with hli | hli
        · subst hli; rw [Function.update_same] at hl'; simp at hl'
        · rw [Function.update_noteq hki] at hk'
          rw [Function.update_noteq hli] at hl'
          exact hinv.2 k l hk' hl'
  | acquire i hidle hlock =>
      refine ⟨fun k _ => rfl, fun k l hk hl => ?_⟩
      have hk' : Function.update s.tasks i LookbackPhase.scanning k =
        LookbackPhase.scanning := hk
      have hl' : Function.update s.tasks i LookbackPhase.scanning l =
        LookbackPhase.scanning := hl
      rcases eq_or_ne k i with hki | hki
      · rcases eq_or_ne l i with hli | hli
        · rw [hki, hli]
        · rw [Function.update_noteq hli] at hl'
          exact absurd (hinv.1 l hl') (by rw [hlock]; simp)
      · rw [Function.update_noteq hki] at hk'
        exact absurd (hinv.1 k hk') (by rw [hlock]; simp)
  | finish i hscan =>
      constructor
      · intro k hk
        have hk' : Function.update s.tasks i (LookbackPhase.done true) k =
          LookbackPhase.scanning := hk
        rcases eq_or_ne k i with hki | hki
        · subst hki; rw [Function.update_same] at hk'; simp at hk'
        · rw [Function.update_noteq hki] at hk'
          exact absurd (hinv.2 k i hk' hscan) hki
      · intro k l hk hl
        have hk' : Function.update s.tasks i (LookbackPhase.done true) k =
          LookbackPhase.scanning := hk
        rcases eq_or_ne k i with hki | hki
        · subst hki; rw [Function.update_same] at hk'; simp at hk'
        · rw [Function.update_noteq hki] at hk'
          exact absurd (hinv.2 k i hk' hscan) hki

lemma lookbackInv_reachable {n : Nat} (s : LookbackState n)
    (h : LookbackReachable s) : lookbackInv s := by
  induction h with
  | refl => exact lookbackInv_init n
  | tail _ hstep ih => exact lookbackInv_step ih hstep

/-- **C8 (amended).** The look-back routine is mutually exclusive with
itself: in every reachable state at most one invocation is executing the
recent-history scan (the lock guarantees this part of the claim).  An
invocation that finds the lock held, however, is skipped outright rather
than serialised — see the counterexample. -/
theorem lookback_mutual_exclusion (n : Nat) (s : LookbackState n)
    (h : LookbackReachable s) (i j : Fin n)
    (hi : s.tasks i = .scanning) (hj : s.tasks j = .scanning) : i = j :=
  (lookbackInv_reachable s h).2 i j hi hj

/-- The state in which task 0 has acquired the lock and is scanning. -/
def lookbackMid : LookbackState 2 :=
  ⟨true, Function.update (fun _ => .idle) 0 .scanning⟩

/-- The state after task 1 then invokes the routine: it completes with no
scan performed. -/
def lookbackSkipped : LookbackState 2 :=
  ⟨true, Function.update lookbackMid.tasks 1 (.done false)⟩

/-- Witness for `lookback_mutual_exclusion` at a concrete reachable state
(task 0 scanning, task 1 skipped): both tasks found scanning must be task 0. -/
theorem lookback_mutual_exclusion_witness :
    LookbackReachable lookbackSkipped ∧ (0 : Fin 2) = 0 := by
  have hstep1 : LookbackStep (lookbackInit 2) lookbackMid :=
    LookbackStep.acquire (lookbackInit 2) 0 rfl rfl
  have hstep2 : LookbackStep lookbackMid lookbackSkipped :=
    LookbackStep.skip lookbackMid 1 (by decide) rfl
  have hreach : LookbackReachable lookbackSkipped :=
    Relation.ReflTransGen.tail (Relation.ReflTransGen.single hstep1) hstep2
  exact ⟨hreach,
    lookback_mutual_exclusion 2 lookbackSkipped hreach 0 0 (by decide) (by decide)⟩

/-- **C8 (counterexample).** Concurrent invocations do not serialise: from
the initial state, task 0 acquires the lock and, while it is still
scanning, task 1 invokes the routine and reaches a completed state having
performed no scan (`done false`) — the invocation was skipped, not queued.
Under serialisation every completed invocation would have run its scan. -/
theorem lookback_serialise_counterexample :
    LookbackReachable lookbackSkipped ∧
    lookbackSkipped.tasks 1 = .done false ∧
    lookbackSkipped.tasks 0 = .scanning := by
  have hstep1 : LookbackStep (lookbackInit 2) lookbackMid :=
    LookbackStep.acquire (lookbackInit 2) 0 rfl rfl
  have hstep2 : LookbackStep lookbackMid lookbackSkipped :=
    LookbackStep.skip lookbackMid 1 (by decide) rfl
  exact ⟨Relation.ReflTransGen.tail (Relation.ReflTransGen.single hstep1) hstep2,
    by decide, by decide⟩

end TelegramRag
